import Mathlib

set_option maxRecDepth 40000

/-!
Verification of the procedural world-generation and streaming subsystem of the
`backrooms` repository: the deterministic wall-grid generator, the chunk
streaming controller, axis-aligned collision resolution and the line-of-sight
query.  Each JavaScript function is shallowly embedded as an executable Lean
definition; machine integers are modelled as `Nat`/`Int` with explicit
truncation, and the engine floating-point coordinates as exact rationals.
-/

namespace Backrooms

/-! ### Deterministic seeded random stream (src/worldGen `seededRandom`)

The source keeps a mutable 31-bit state `s` and on each draw executes
`s = (s * 1103515245 + 12345) & 0x7fffffff`, returning `s / 0x7fffffff`.
We model the state transition exactly in `Nat` arithmetic (JavaScript evaluates
the product in float64, which can round above `2^53`; none of the verified
properties depend on the numeric values of the stream, only on the state being
threaded deterministically).  A draw compared with a constant threshold
`rng() > 0.45` becomes an exact rational comparison of the new state against
`0.45 * 0x7fffffff`, and the sign test of the shuffle comparator
`rng() - 0.5` becomes a comparison of `2 * s` with `0x7fffffff`. -/

def rngStep (s : Nat) : Nat := (s * 1103515245 + 12345) % 2147483648

/-- Models `rng() > 0.45` on the freshly updated state. -/
def rngGt45 (s : Nat) : Bool := decide (9 * 2147483647 < 20 * s)

/-- Models `rng() - 0.5 < 0` on the freshly updated state (shuffle comparator). -/
def rngNeg (s : Nat) : Bool := decide (2 * s < 2147483647)

/-- The per-chunk structural seed `((cx * 73856093) ^ (cz * 19349663)) >>> 0`:
each product is truncated to its low 32 bits (JavaScript `ToInt32`), the two
32-bit patterns are XORed, and `>>> 0` reinterprets the result as unsigned. -/
def chunkSeed (cx cz : Int) : Nat :=
  Nat.xor ((cx * 73856093) % 4294967296).toNat ((cz * 19349663) % 4294967296).toNat

/-! ### The wall grid

A wall slot is addressed by its array (`ty = true` for `hWalls`, `false` for
`vWalls`) and indices `i`, `j`.  The two JavaScript arrays of booleans are
modelled together as one total function from slots to `Bool` (all writes in the
generator are in bounds, and unset array entries read as falsy `undefined`,
matching the `false` default). -/

structure Side where
  ty : Bool
  i : Nat
  j : Nat
deriving DecidableEq, Repr

abbrev Grid := Side → Bool

def setSide (g : Grid) (sd : Side) (v : Bool) : Grid :=
  fun t => if t = sd then v else g t

def initGrid : Grid := fun _ => false

/-- One iteration of the initial sampling loop body:
`hWalls[i][j] = rng() > 0.45; vWalls[i][j] = rng() > 0.45`. -/
def sampleCell (acc : Grid × Nat) (i j : Nat) : Grid × Nat :=
  let s1 := rngStep acc.2
  let g1 := setSide acc.1 ⟨true, i, j⟩ (rngGt45 s1)
  let s2 := rngStep s1
  let g2 := setSide g1 ⟨false, i, j⟩ (rngGt45 s2)
  (g2, s2)

/-- The initial random sampling: for `i` in `[0, gSize]`, `j` in `[0, gSize)`,
draw `hWalls[i][j]` then `vWalls[i][j]`. -/
def sampleGrid (gSize : Nat) (seed : Nat) : Grid × Nat :=
  (List.range (gSize + 1)).foldl
    (fun acc i => (List.range gSize).foldl (fun a j => sampleCell a i j) acc)
    (initGrid, seed)

/-- The boundary loop: for `j` in `[0, gSize)`, when `j = floor(gSize/2)` the
four edge-midpoint slots `hWalls[gSize][j]`, `hWalls[0][j]`, `vWalls[gSize][j]`
and `vWalls[0][j]` are forced open. -/
def boundaryStep (gSize : Nat) (g : Grid) (j : Nat) : Grid :=
  if j = gSize / 2 then
    setSide (setSide (setSide (setSide g ⟨true, gSize, j⟩ false)
      ⟨true, 0, j⟩ false) ⟨false, gSize, j⟩ false) ⟨false, 0, j⟩ false
  else g

def clearBoundary (gSize : Nat) (g : Grid) : Grid :=
  (List.range gSize).foldl (boundaryStep gSize) g

/-- The four bounding slots of cell `(x, z)`, in the order the source lists
them: `hWalls[z+1][x]`, `hWalls[z][x]`, `vWalls[x+1][z]`, `vWalls[x][z]`. -/
def cellSides (x z : Nat) : List Side :=
  [⟨true, z + 1, x⟩, ⟨true, z, x⟩, ⟨false, x + 1, z⟩, ⟨false, x, z⟩]

/-! `[...sides].sort(() => rng() - 0.5)` shuffles the four candidate sides with
a randomized comparator.  The permutation actually produced (and the number of
comparator invocations) is engine specific; we model the sort as a stable
insertion sort drawing one stream value per comparison.  Every verified
property is independent of the particular permutation produced. -/

def insertRand (x : Side) : List Side → Nat → List Side × Nat
  | [], s => ([x], s)
  | y :: ys, s =>
    let s1 := rngStep s
    if rngNeg s1 then (x :: y :: ys, s1)
    else
      let p := insertRand x ys s1
      (y :: p.1, p.2)

def shuffleSides : List Side → Nat → List Side × Nat
  | [], s => ([], s)
  | x :: xs, s =>
    let p := shuffleSides xs s
    insertRand x p.1 p.2

/-- The inner `for (const side of shuffled)` loop of the first repair pass:
open each still-closed side encountered, incrementing `openSides`, breaking
once `openSides >= 2`. -/
def openScan : Grid → List Side → Nat → Grid × Nat
  | g, [], c => (g, c)
  | g, sd :: rest, c =>
    if g sd then
      let g1 := setSide g sd false
      if 2 ≤ c + 1 then (g1, c + 1) else openScan g1 rest (c + 1)
    else openScan g rest c

/-- The `while (openSides < 2)` loop of the first repair pass, with fuel (the
loop provably exits after one shuffle-and-scan iteration). -/
def ensureOpen : Nat → Grid → Nat → Nat → List Side → Grid × Nat
  | 0, g, s, _, _ => (g, s)
  | fuel + 1, g, s, c, sides =>
    if c < 2 then
      let sh := shuffleSides sides s
      let p := openScan g sh.1 c
      ensureOpen fuel p.1 sh.2 p.2 sides
    else (g, s)

def countOpen (g : Grid) (l : List Side) : Nat := l.countP (fun sd => !g sd)

def countWalls (g : Grid) (l : List Side) : Nat := l.countP (fun sd => g sd)

/-- Cell iteration order of both repair passes: `z` outer, `x` inner. -/
def cellList (gSize : Nat) : List (Nat × Nat) :=
  (List.range gSize).flatMap (fun z => (List.range gSize).map (fun x => (x, z)))

def openPassStep (acc : Grid × Nat) (cell : Nat × Nat) : Grid × Nat :=
  let sides := cellSides cell.1 cell.2
  ensureOpen 4 acc.1 acc.2 (countOpen acc.1 sides) sides

/-- First repair pass: ensure every cell has at least 2 open sides. -/
def openPass (gSize : Nat) (gs : Grid × Nat) : Grid × Nat :=
  (cellList gSize).foldl openPassStep gs

/-- The inner scan of the second repair pass: open each still-present wall,
decrementing `wallCount`, breaking once `wallCount <= 2`. -/
def wallScan : Grid → List Side → Nat → Grid × Nat
  | g, [], c => (g, c)
  | g, sd :: rest, c =>
    if g sd then
      let g1 := setSide g sd false
      if c - 1 ≤ 2 then (g1, c - 1) else wallScan g1 rest (c - 1)
    else wallScan g rest c

/-- The `while (wallCount > 2)` loop of the second repair pass, with fuel. -/
def reduceWalls : Nat → Grid → Nat → Nat → List Side → Grid × Nat
  | 0, g, s, _, _ => (g, s)
  | fuel + 1, g, s, c, sides =>
    if 2 < c then
      let sh := shuffleSides sides s
      let p := wallScan g sh.1 c
      reduceWalls fuel p.1 sh.2 p.2 sides
    else (g, s)

def wallPassStep (acc : Grid × Nat) (cell : Nat × Nat) : Grid × Nat :=
  let sides := cellSides cell.1 cell.2
  reduceWalls 4 acc.1 acc.2 (countWalls acc.1 sides) sides

/-- Second repair pass: ensure no cell has more than 2 walls. -/
def wallPass (gSize : Nat) (gs : Grid × Nat) : Grid × Nat :=
  (cellList gSize).foldl wallPassStep gs

/-- The full generator pipeline from a given structural seed. -/
def generateWallGridSeeded (seed gSize : Nat) : Grid :=
  let seeded := sampleGrid gSize seed
  (wallPass gSize (openPass gSize (clearBoundary gSize seeded.1, seeded.2))).1

/-- Function `generateWallGrid(cx, cz, gSize)` of the source. -/
def generateWallGrid (cx cz : Int) (gSize : Nat) : Grid :=
  generateWallGridSeeded (chunkSeed cx cz) gSize

/-- The returned `hWalls` (for `ty = true`) or `vWalls` (`ty = false`) array
materialized as a list of `gSize + 1` rows of `gSize` booleans. -/
def gridRows (g : Grid) (ty : Bool) (gSize : Nat) : List (List Bool) :=
  (List.range (gSize + 1)).map (fun i => (List.range gSize).map (fun j => g ⟨ty, i, j⟩))

/-- The pair of arrays `{hWalls, vWalls}` returned by `generateWallGrid`. -/
def wallGridLists (cx cz : Int) (gSize : Nat) : List (List Bool) × List (List Bool) :=
  (gridRows (generateWallGrid cx cz gSize) true gSize,
   gridRows (generateWallGrid cx cz gSize) false gSize)

/-- Relation `Opens g g2` says `g2` is reachable from `g` by only opening slots: every
wall of `g2` was already a wall of `g`. -/
def Opens (g g2 : Grid) : Prop := ∀ sd : Side, g2 sd = true → g sd = true

/-! ### Collision resolution (src/main.js `handleCollision`)

The agent position and the wall primitives live on the engine's float
coordinates; we model coordinates as exact rationals.  A wall primitive is an
axis-aligned box given by its world center (`getWorldPosition` of the mesh:
the mesh origin, which for the box geometries used is the box center) and its
half-extents; `Box3.setFromObject` then yields exactly `center ± half`. -/

structure Vec3q where
  x : ℚ
  y : ℚ
  z : ℚ
deriving DecidableEq, Repr

structure Wall where
  cx : ℚ
  cy : ℚ
  cz : ℚ
  hx : ℚ
  hy : ℚ
  hz : ℚ
deriving DecidableEq, Repr

structure Box where
  minX : ℚ
  maxX : ℚ
  minY : ℚ
  maxY : ℚ
  minZ : ℚ
  maxZ : ℚ
deriving DecidableEq, Repr

def PLAYER_RADIUS : ℚ := 1 / 2

def wallBox (w : Wall) : Box :=
  ⟨w.cx - w.hx, w.cx + w.hx, w.cy - w.hy, w.cy + w.hy, w.cz - w.hz, w.cz + w.hz⟩

/-- Models `Box3.setFromCenterAndSize(target, (PLAYER_RADIUS*2, 1.8, PLAYER_RADIUS*2))`. -/
def playerBox (p : Vec3q) : Box :=
  ⟨p.x - PLAYER_RADIUS, p.x + PLAYER_RADIUS, p.y - 9/10, p.y + 9/10,
   p.z - PLAYER_RADIUS, p.z + PLAYER_RADIUS⟩

/-- Models `Box3.intersectsBox`: inclusive interval overlap on all three axes. -/
def intersectsBox (a b : Box) : Bool :=
  decide (b.minX ≤ a.maxX) && decide (a.minX ≤ b.maxX) &&
  decide (b.minY ≤ a.maxY) && decide (a.minY ≤ b.maxY) &&
  decide (b.minZ ≤ a.maxZ) && decide (a.minZ ≤ b.maxZ)

/-- One iteration of the wall loop of `handleCollision`: `pB` is the agent box
computed once from the input position, `q` the (possibly already corrected)
mutable `target`.  On intersection the overlap box of `pB` with the wall box is
measured and `target` is pushed along X when `size.x < size.z`, else along Z,
away from the wall center on that axis. -/
def collideStep (pB : Box) (q : Vec3q) (w : Wall) : Vec3q :=
  let wB := wallBox w
  if intersectsBox pB wB then
    let sx := min pB.maxX wB.maxX - max pB.minX wB.minX
    let sz := min pB.maxZ wB.maxZ - max pB.minZ wB.minZ
    if sx < sz then { q with x := q.x + (if q.x > w.cx then 1 else -1) * sx }
    else { q with z := q.z + (if q.z > w.cz then 1 else -1) * sz }
  else q

def collideLoop (pB : Box) : Vec3q → List Wall → Vec3q
  | q, [] => q
  | q, w :: ws => collideLoop pB (collideStep pB q w) ws

/-- Function `handleCollision(target)`: the agent box `pBox` is computed once from the
input position and never recomputed while the corrections accumulate into
`target`. -/
def handleCollision (p : Vec3q) (ws : List Wall) : Vec3q :=
  collideLoop (playerBox p) p ws

/-- The variant the specification describes: each subsequent wall is tested
against the agent box of the already-partially-corrected position (the box is
recomputed from the current `target` before every wall).  Written from the
spec's words, for comparison with `handleCollision`. -/
def handleCollisionRespec : Vec3q → List Wall → Vec3q
  | q, [] => q
  | q, w :: ws => handleCollisionRespec (collideStep (playerBox q) q w) ws

/-- The agent box is fully enclosed by the wall box. -/
def enclosedBy (p : Vec3q) (w : Wall) : Prop :=
  (wallBox w).minX ≤ (playerBox p).minX ∧ (playerBox p).maxX ≤ (wallBox w).maxX ∧
  (wallBox w).minY ≤ (playerBox p).minY ∧ (playerBox p).maxY ≤ (wallBox w).maxY ∧
  (wallBox w).minZ ≤ (playerBox p).minZ ∧ (playerBox p).maxZ ≤ (wallBox w).maxZ

/-! ### Line-of-sight query (src/worldGen `hasLineOfSight`)

The source parametrizes the segment by arc length `t ∈ [0, rayLength]` with
the unit direction `(dirX, dirZ) / rayLength`, where
`rayLength = sqrt(dirX^2 + dirZ^2)` is irrational.  We use the equivalent
scaled parameter `t / rayLength ∈ [0, 1]`: each slab boundary parameter
`(min - from) / norm` becomes `(min - from) / dir`, the degeneracy test
`|norm| > 0.0001` becomes `dir^2 * 10^8 > rayLength^2`, the starting interval
`[0, rayLength]` becomes `[0, 1]`, and the final `tMin < rayLength && tMax > 0`
becomes `tMin < 1 && tMax > 0`.  This reformulation is exact over the reals
and keeps every comparison rational. -/

/-- One slab boundary parameter `(bound - from) / dir` of the scaled segment
parametrization. -/
def slabT1 (bound f dir : ℚ) : ℚ := (bound - f) / dir

/-- The final blocked test when both slabs clipped the interval:
`tMin = max(max(0, near_x), near_z)`, `tMax = min(min(1, far_x), far_z)`,
blocked iff `tMin <= tMax && tMin < 1 && tMax > 0`. -/
def clipBlocked (t1 t2 u1 u2 : ℚ) : Bool :=
  decide (max (max 0 (min t1 t2)) (min u1 u2) ≤ min (min 1 (max t1 t2)) (max u1 u2)) &&
  decide (max (max 0 (min t1 t2)) (min u1 u2) < 1) &&
  decide (0 < min (min 1 (max t1 t2)) (max u1 u2))

/-- The blocked test when only one axis clipped the interval. -/
def clipBlockedOne (t1 t2 : ℚ) : Bool :=
  decide (max 0 (min t1 t2) ≤ min 1 (max t1 t2)) &&
  decide (max 0 (min t1 t2) < 1) &&
  decide (0 < min 1 (max t1 t2))

/-- Does the wall box of `w` occlude the segment from `(fx, fz)` to
`(tx, tz)`?  Mirrors one iteration of the wall loop of `hasLineOfSight`
(a `continue` is `false`; an axis whose direction component is below the
`0.0001` threshold does not clip and instead containment-tests the `from`
endpoint). -/
def wallBlocks (fx fz tx tz : ℚ) (w : Wall) : Bool :=
  let dirX := tx - fx
  let dirZ := tz - fz
  let len2 := dirX * dirX + dirZ * dirZ
  let wB := wallBox w
  if 100000000 * (dirX * dirX) > len2 then
    if 100000000 * (dirZ * dirZ) > len2 then
      clipBlocked (slabT1 wB.minX fx dirX) (slabT1 wB.maxX fx dirX)
        (slabT1 wB.minZ fz dirZ) (slabT1 wB.maxZ fz dirZ)
    else if fz < wB.minZ ∨ fz > wB.maxZ then false
    else clipBlockedOne (slabT1 wB.minX fx dirX) (slabT1 wB.maxX fx dirX)
  else if fx < wB.minX ∨ fx > wB.maxX then false
  else
    if 100000000 * (dirZ * dirZ) > len2 then
      clipBlockedOne (slabT1 wB.minZ fz dirZ) (slabT1 wB.maxZ fz dirZ)
    else if fz < wB.minZ ∨ fz > wB.maxZ then false
    else true

/-- Function `hasLineOfSight(fromX, fromZ, toX, toZ, walls)`: true iff the segment is
shorter than `0.01` or no wall blocks it.  (With both slabs degenerate and
both containment checks passing, `tMin = 0 ≤ tMax = rayLength` and the
segment is reported blocked, hence the final `true` branch of `wallBlocks`.) -/
def hasLineOfSight (fx fz tx tz : ℚ) (ws : List Wall) : Bool :=
  let dirX := tx - fx
  let dirZ := tz - fz
  let len2 := dirX * dirX + dirZ * dirZ
  if len2 < 1 / 10000 then true
  else ws.all (fun w => !wallBlocks fx fz tx tz w)

/-! ### Chunk streaming (src/main.js `generateChunk` / `updateChunks`)

The chunk map is a JavaScript `Map` keyed by the string `"x,z"` (the string
key identifies the coordinate pair, so keys are modelled as the pair itself);
`Map` preserves insertion order, modelled as an association list.  A scene
primitive (wall mesh, light panel, phone position) is identified by its owning
chunk coordinate, its kind and its slot — distinct chunks own distinct mesh
objects, so JavaScript reference equality (`children.includes`,
`positions.includes`) coincides with structural equality of these tags. -/

structure Prim where
  ownerX : Int
  ownerZ : Int
  kind : Nat
  a : Nat
  b : Nat
deriving DecidableEq, Repr

structure ChunkRec where
  cwalls : List Prim
  cpanels : List Prim
  cphones : List Prim
deriving DecidableEq, Repr

structure WState where
  chunks : List ((Int × Int) × ChunkRec)
  walls : List Prim
  lightPanels : List Prim
  phonePositions : List Prim
deriving DecidableEq, Repr

def RENDER_DIST : Nat := 2

def PRELOAD_DIST : Nat := 4

def PHONE_EXCLUSION_DIST : Nat := 6

def CHUNK_SIZE : ℚ := 24

/-- The outcome of the floating-point trig-hash draws
`rnd(s) = |sin(s) * 10000| % 1` of `generateChunk`, compared against the wall
density and prop rarity thresholds.  The hash is a fixed function of the seed
`(cx*12345) ^ (cz*54321)` and the slot, but irrational (`Math.sin`); it is
modelled as an opaque boolean decision per chunk and slot — every verified
streaming property holds for all outcomes.  `phoneModel` is the presence of
the optional phone asset (`wallPhoneModel` non-nil). -/
structure GenDecisions where
  decV : Int → Int → Nat → Nat → Bool
  decH : Int → Int → Nat → Nat → Bool
  decPhone : Int → Int → Nat → Bool
  phoneModel : Bool

/-- The wall meshes pushed by `generateChunk(x, z)`: for `i` in `[0, 3]` and
`j` in `[0, 2]`, a V wall when `rnd(seed + i*7 + j) > 0.65`, then an H wall
when `rnd(seed + i*13 + j) > 0.65`. -/
def chunkWalls (d : GenDecisions) (x z : Int) : List Prim :=
  (List.range 4).flatMap (fun i =>
    (List.range 3).flatMap (fun j =>
      (if d.decV x z i j then [⟨x, z, 0, i, j⟩] else []) ++
      (if d.decH x z i j then [⟨x, z, 1, i, j⟩] else [])))

/-- The 3 × 3 light panels pushed by `generateChunk(x, z)`. -/
def chunkPanels (x z : Int) : List Prim :=
  (List.range 3).flatMap (fun i =>
    (List.range 3).map (fun j => ⟨x, z, 2, i, j⟩))

/-- The phone world positions pushed by `generateChunk(x, z)`: one optional
phone per tracked wall (indexed over `wallsInChunk`, which revisits the same
slot decisions as the wall pass), gated by the loaded phone model and the
Chebyshev exclusion radius around the spawn chunk. -/
def chunkPhones (d : GenDecisions) (x z : Int) : List Prim :=
  if d.phoneModel && decide (PHONE_EXCLUSION_DIST ≤ max x.natAbs z.natAbs) then
    (List.range (chunkWalls d x z).length).filterMap
      (fun n => if d.decPhone x z n then some ⟨x, z, 3, n, 0⟩ else none)
  else []

def buildChunk (d : GenDecisions) (x z : Int) : ChunkRec :=
  ⟨chunkWalls d x z, chunkPanels x z, chunkPhones d x z⟩

def hasKey (m : List ((Int × Int) × ChunkRec)) (k : Int × Int) : Bool :=
  m.any (fun e => decide (e.1 = k))

/-- Models `chunks.set(k, generateChunk(x, z))` for a fresh key: build the chunk
record, push its primitives onto the global collections, append to the map. -/
def addChunk (d : GenDecisions) (x z : Int) (s : WState) : WState :=
  let c := buildChunk d x z
  { chunks := s.chunks ++ [((x, z), c)],
    walls := s.walls ++ c.cwalls,
    lightPanels := s.lightPanels ++ c.cpanels,
    phonePositions := s.phonePositions ++ c.cphones }

/-- Predicate `isChunkNearby`: Chebyshev distance from the player chunk at most
`RENDER_DIST`. -/
def isChunkNearby (x z px pz : Int) : Bool :=
  decide ((x - px).natAbs ≤ RENDER_DIST) && decide ((z - pz).natAbs ≤ RENDER_DIST)

/-- Predicate `isChunkInPreloadRange`: Chebyshev distance at most `PRELOAD_DIST`. -/
def isChunkInPreloadRange (x z px pz : Int) : Bool :=
  decide ((x - px).natAbs ≤ PRELOAD_DIST) && decide ((z - pz).natAbs ≤ PRELOAD_DIST)

/-- The residency condition of the first pass: nearby, or potentially visible
(`fr`, the frustum test of the chunk bounding box, an opaque function of the
fixed camera state) and within preload range. -/
def shouldLoad (fr : Int → Int → Bool) (x z px pz : Int) : Bool :=
  isChunkNearby x z px pz || (fr x z && isChunkInPreloadRange x z px pz)

/-- The scanned coordinates: `x` from `px - PRELOAD_DIST` to
`px + PRELOAD_DIST` outer, `z` inner. -/
def coordList (px pz : Int) : List (Int × Int) :=
  (List.range 9).flatMap (fun dx =>
    (List.range 9).map (fun dz => (px - 4 + dx, pz - 4 + dz)))

/-- One iteration of the first pass: on the residency condition, add the key
to `activeKeys` (a `Set`), and generate the chunk unless already resident. -/
def pass1Step (d : GenDecisions) (fr : Int → Int → Bool) (px pz : Int)
    (acc : WState × List (Int × Int)) (xz : Int × Int) : WState × List (Int × Int) :=
  if shouldLoad fr xz.1 xz.2 px pz then
    let act2 := if xz ∈ acc.2 then acc.2 else acc.2 ++ [xz]
    if hasKey acc.1.chunks xz then (acc.1, act2)
    else (addChunk d xz.1 xz.2 acc.1, act2)
  else acc

def loadPass (d : GenDecisions) (fr : Int → Int → Bool) (px pz : Int)
    (s : WState) : WState × List (Int × Int) :=
  (coordList px pz).foldl (pass1Step d fr px pz) (s, [])

/-- The `activeKeys` accumulation alone (state independent). -/
def actStep (fr : Int → Int → Bool) (px pz : Int)
    (a : List (Int × Int)) (xz : Int × Int) : List (Int × Int) :=
  if shouldLoad fr xz.1 xz.2 px pz then (if xz ∈ a then a else a ++ [xz]) else a

def activeList (fr : Int → Int → Bool) (px pz : Int) : List (Int × Int) :=
  (coordList px pz).foldl (actStep fr px pz) []

def removeKey (m : List ((Int × Int) × ChunkRec)) (k : Int × Int) :
    List ((Int × Int) × ChunkRec) :=
  m.filter (fun e => decide (e.1 ≠ k))

/-- The body of the eviction loop for one non-active entry `(k, c)`:
`walls = walls.filter(w => !obj.children.includes(w))`, likewise for light
panels and the chunk's recorded phone positions, then `chunks.delete(key)`. -/
def evictChunk (k : Int × Int) (c : ChunkRec) (s : WState) : WState :=
  { chunks := removeKey s.chunks k,
    walls := s.walls.filter (fun w => decide (w ∉ c.cwalls)),
    lightPanels := s.lightPanels.filter (fun p => decide (p ∉ c.cpanels)),
    phonePositions := s.phonePositions.filter (fun p => decide (p ∉ c.cphones)) }

/-- The second pass: iterate the chunk map entries, evicting every entry whose
key is not in `activeKeys`. -/
def evictPass (act : List (Int × Int)) : List ((Int × Int) × ChunkRec) → WState → WState
  | [], s => s
  | (k, c) :: rest, s =>
    if k ∈ act then evictPass act rest s
    else evictPass act rest (evictChunk k c s)

/-- Function `updateChunks()`: compute the player chunk by flooring the camera position
over `CHUNK_SIZE`, run the load pass over the preload box, then the eviction
pass over the (updated) chunk map. -/
def updateChunks (d : GenDecisions) (fr : Int → Int → Bool) (camX camZ : ℚ)
    (s : WState) : WState :=
  let px := ⌊camX / CHUNK_SIZE⌋
  let pz := ⌊camZ / CHUNK_SIZE⌋
  let p := loadPass d fr px pz s
  evictPass p.2 p.1.chunks p.1

/-- The streaming invariant: chunk-map keys are unique, every resident record
is the built record of its coordinate, and each global collection is exactly
the concatenation of the resident chunks' primitives of that kind, in map
order. -/
def chunksConsistent (d : GenDecisions) (s : WState) : Prop :=
  (s.chunks.map Prod.fst).Nodup ∧
  (∀ e ∈ s.chunks, e.2 = buildChunk d e.1.1 e.1.2) ∧
  s.walls = (s.chunks.map (fun e => e.2.cwalls)).flatten ∧
  s.lightPanels = (s.chunks.map (fun e => e.2.cpanels)).flatten ∧
  s.phonePositions = (s.chunks.map (fun e => e.2.cphones)).flatten

end Backrooms

namespace Backrooms

/-! ### Monotonicity: every step of the generator after sampling only opens slots -/

theorem opens_refl (g : Grid) : Opens g g := fun _ h => h

theorem opens_trans {g1 g2 g3 : Grid} (h12 : Opens g1 g2) (h23 : Opens g2 g3) :
    Opens g1 g3 := fun sd h => h12 sd (h23 sd h)

theorem opens_setFalse (g : Grid) (sd : Side) : Opens g (setSide g sd false) := by
  intro t h
  unfold setSide at h
  split at h
  · exact absurd h (by simp)
  · exact h

theorem setSide_self (g : Grid) (sd : Side) (v : Bool) : setSide g sd v sd = v := by
  simp [setSide]

theorem setSide_ne (g : Grid) (sd t : Side) (v : Bool) (h : t ≠ sd) :
    setSide g sd v t = g t := by
  simp [setSide, h]

theorem openScan_opens (l : List Side) : ∀ (g : Grid) (c : Nat),
    Opens g (openScan g l c).1 := by
  induction l with
  | nil => intro g _c; exact opens_refl g
  | cons sd rest ih =>
    intro g c
    simp only [openScan]
    split
    · split
      · exact opens_setFalse g sd
      · exact opens_trans (opens_setFalse g sd) (ih _ _)
    · exact ih g c

theorem wallScan_opens (l : List Side) : ∀ (g : Grid) (c : Nat),
    Opens g (wallScan g l c).1 := by
  induction l with
  | nil => intro g _c; exact opens_refl g
  | cons sd rest ih =>
    intro g c
    simp only [wallScan]
    split
    · split
      · exact opens_setFalse g sd
      · exact opens_trans (opens_setFalse g sd) (ih _ _)
    · exact ih g c

theorem ensureOpen_opens (fuel : Nat) : ∀ (g : Grid) (s c : Nat) (sides : List Side),
    Opens g (ensureOpen fuel g s c sides).1 := by
  induction fuel with
  | zero => intro g _s _c _sides; exact opens_refl g
  | succ n ih =>
    intro g s c sides
    simp only [ensureOpen]
    split
    · exact opens_trans (openScan_opens _ _ _) (ih _ _ _ _)
    · exact opens_refl g

theorem reduceWalls_opens (fuel : Nat) : ∀ (g : Grid) (s c : Nat) (sides : List Side),
    Opens g (reduceWalls fuel g s c sides).1 := by
  induction fuel with
  | zero => intro g _s _c _sides; exact opens_refl g
  | succ n ih =>
    intro g s c sides
    simp only [reduceWalls]
    split
    · exact opens_trans (wallScan_opens _ _ _) (ih _ _ _ _)
    · exact opens_refl g

theorem foldl_opens {α : Type} (f : Grid × Nat → α → Grid × Nat)
    (hf : ∀ a c, Opens a.1 (f a c).1) :
    ∀ (l : List α) (a : Grid × Nat), Opens a.1 (l.foldl f a).1 := by
  intro l
  induction l with
  | nil => intro a; exact opens_refl a.1
  | cons c rest ih => intro a; exact opens_trans (hf a c) (ih (f a c))

theorem openPass_opens (gSize : Nat) (gs : Grid × Nat) :
    Opens gs.1 (openPass gSize gs).1 :=
  foldl_opens openPassStep (fun a _c => ensureOpen_opens 4 a.1 a.2 _ _) (cellList gSize) gs

theorem wallPass_opens_fold (cells : List (Nat × Nat)) (gs : Grid × Nat) :
    Opens gs.1 (cells.foldl wallPassStep gs).1 :=
  foldl_opens wallPassStep (fun a _c => reduceWalls_opens 4 a.1 a.2 _ _) cells gs

theorem boundaryStep_opens (gSize : Nat) (g : Grid) (j : Nat) :
    Opens g (boundaryStep gSize g j) := by
  unfold boundaryStep
  split
  · exact opens_trans (opens_setFalse _ _) (opens_trans (opens_setFalse _ _)
      (opens_trans (opens_setFalse _ _) (opens_setFalse _ _)))
  · exact opens_refl g

theorem clearBoundary_fold_opens (gSize : Nat) (l : List Nat) : ∀ (g : Grid),
    Opens g (l.foldl (boundaryStep gSize) g) := by
  induction l with
  | nil => intro g; exact opens_refl g
  | cons j rest ih => intro g; exact opens_trans (boundaryStep_opens gSize g j) (ih _)

theorem clearBoundary_opens (gSize : Nat) (g : Grid) :
    Opens g (clearBoundary gSize g) := clearBoundary_fold_opens gSize _ g

/-- The final grid only removes walls relative to the grid right after the
boundary stage. -/
theorem generate_opens (seed gSize : Nat) :
    Opens (clearBoundary gSize (sampleGrid gSize seed).1)
      (generateWallGridSeeded seed gSize) := by
  unfold generateWallGridSeeded wallPass
  exact opens_trans (openPass_opens gSize _) (wallPass_opens_fold _ _)

/-- The final grid only removes walls relative to the sampled grid. -/
theorem generate_opens_sample (seed gSize : Nat) :
    Opens (sampleGrid gSize seed).1 (generateWallGridSeeded seed gSize) :=
  opens_trans (clearBoundary_opens gSize _) (generate_opens seed gSize)

theorem opens_false {g g2 : Grid} (h : Opens g g2) (sd : Side) (hf : g sd = false) :
    g2 sd = false := by
  cases hv : g2 sd with
  | false => rfl
  | true => exact absurd (h sd hv) (by simp [hf])

end Backrooms

namespace Backrooms

/-! ### Counting lemmas -/

theorem countOpen_add_countWalls (g : Grid) (l : List Side) :
    countOpen g l + countWalls g l = l.length := by
  induction l with
  | nil => rfl
  | cons sd rest ih =>
    simp only [countOpen, countWalls, List.countP_cons] at *
    cases h : g sd <;> simp [h] <;> omega

theorem countWalls_mono {g g2 : Grid} (h : Opens g g2) (l : List Side) :
    countWalls g2 l ≤ countWalls g l :=
  List.countP_mono_left (fun sd _ hw => h sd hw)

theorem countWalls_eq_zero {g : Grid} {l : List Side}
    (h : ∀ sd ∈ l, g sd = false) : countWalls g l = 0 := by
  rw [countWalls, List.countP_eq_zero]
  intro sd hsd
  simp [h sd hsd]

theorem countWalls_congr {g g2 : Grid} {l : List Side}
    (h : ∀ sd ∈ l, g sd = g2 sd) : countWalls g l = countWalls g2 l := by
  induction l with
  | nil => rfl
  | cons sd rest ih =>
    simp only [countWalls, List.countP_cons] at *
    rw [h sd (by simp), ih (fun t ht => h t (by simp [ht]))]

theorem countWalls_pos {g : Grid} {l : List Side} {sd : Side}
    (hmem : sd ∈ l) (hw : g sd = true) : 1 ≤ countWalls g l := by
  rw [countWalls]
  exact List.countP_pos_iff.mpr ⟨sd, hmem, by simp [hw]⟩

/-- Opening a wall that is present in a duplicate-free slot list decrements its
wall count by exactly one. -/
theorem countWalls_set {g : Grid} {l : List Side} {sd : Side}
    (hnd : l.Nodup) (hmem : sd ∈ l) (hw : g sd = true) :
    countWalls (setSide g sd false) l = countWalls g l - 1 := by
  induction l with
  | nil => cases hmem
  | cons hd rest ih =>
    rcases List.mem_cons.mp hmem with heq | htl
    · subst heq
      have hrest : ∀ t ∈ rest, setSide g sd false t = g t := by
        intro t ht
        exact setSide_ne g sd t false (fun hts => (List.nodup_cons.mp hnd).1 (hts ▸ ht))
      have hcongr : countWalls (setSide g sd false) rest = countWalls g rest :=
        countWalls_congr hrest
      have h1 : countWalls (setSide g sd false) (sd :: rest) = countWalls g rest := by
        simp only [countWalls, List.countP_cons, setSide_self]
        simp only [countWalls] at hcongr
        simp [hcongr]
      have h2 : countWalls g (sd :: rest) = countWalls g rest + 1 := by
        simp only [countWalls, List.countP_cons, hw]
        simp
      omega
    · have hne : hd ≠ sd := fun h => (List.nodup_cons.mp hnd).1 (h ▸ htl)
      have hih := ih (List.nodup_cons.mp hnd).2 htl
      have hpos := countWalls_pos htl hw
      simp only [countWalls, List.countP_cons] at hih hpos ⊢
      rw [setSide_ne g sd hd false hne]
      cases h : g hd <;> simp [h] <;> omega

/-! ### Specification of the second-pass scan and loop -/

theorem wallScan_spec (sides : List Side) (hnds : sides.Nodup) :
    ∀ (l : List Side) (g : Grid) (c : Nat), (∀ sd ∈ l, sd ∈ sides) →
      c = countWalls g sides →
      (wallScan g l c).2 = countWalls (wallScan g l c).1 sides ∧
        ((wallScan g l c).2 ≤ 2 ∨ ∀ sd ∈ l, (wallScan g l c).1 sd = false) := by
  intro l
  induction l with
  | nil =>
    intro g c _ hc
    exact ⟨hc, Or.inr (by simp)⟩
  | cons sd rest ih =>
    intro g c hsub hc
    have hsd : sd ∈ sides := hsub sd (by simp)
    by_cases hw : g sd = true
    · have hdec : countWalls (setSide g sd false) sides = c - 1 := by
        rw [countWalls_set hnds hsd hw, hc]
      by_cases hstop : c - 1 ≤ 2
      · simp only [wallScan, hw, if_true]
        rw [if_pos hstop]
        exact ⟨hdec.symm, Or.inl hstop⟩
      · simp only [wallScan, hw, if_true]
        rw [if_neg hstop]
        have hres := ih (setSide g sd false) (c - 1)
          (fun t ht => hsub t (by simp [ht])) hdec.symm
        refine ⟨hres.1, ?_⟩
        rcases hres.2 with h2 | h2
        · exact Or.inl h2
        · refine Or.inr ?_
          intro t ht
          rcases List.mem_cons.mp ht with heq | htl
          · subst heq
            exact opens_false (wallScan_opens rest _ _) t (setSide_self g t false)
          · exact h2 t htl
    · have hw2 : g sd = false := by
        cases h : g sd
        · rfl
        · exact absurd h hw
      simp only [wallScan, hw2, Bool.false_eq_true, if_false]
      have hres := ih g c (fun t ht => hsub t (by simp [ht])) hc
      refine ⟨hres.1, ?_⟩
      rcases hres.2 with h2 | h2
      · exact Or.inl h2
      · refine Or.inr ?_
        intro t ht
        rcases List.mem_cons.mp ht with heq | htl
        · subst heq
          exact opens_false (wallScan_opens rest _ _) t hw2
        · exact h2 t htl

theorem insertRand_perm (x : Side) : ∀ (l : List Side) (s : Nat),
    (insertRand x l s).1.Perm (x :: l) := by
  intro l
  induction l with
  | nil => intro s; exact List.Perm.refl _
  | cons y ys ih =>
    intro s
    simp only [insertRand]
    split
    · exact List.Perm.refl _
    · exact ((ih _).cons y).trans (List.Perm.swap x y ys)

theorem shuffleSides_perm : ∀ (l : List Side) (s : Nat),
    (shuffleSides l s).1.Perm l := by
  intro l
  induction l with
  | nil => intro s; exact List.Perm.refl _
  | cons x xs ih =>
    intro s
    simp only [shuffleSides]
    exact (insertRand_perm x _ _).trans ((ih s).cons x)

theorem reduceWalls_stop (g : Grid) (s c : Nat) (sides : List Side) (fuel : Nat)
    (hc : ¬ 2 < c) : reduceWalls (fuel + 1) g s c sides = (g, s) := by
  simp [reduceWalls, hc]

theorem reduceWalls_step (fuel : Nat) (g : Grid) (s c : Nat) (sides : List Side)
    (h : 2 < c) :
    reduceWalls (fuel + 1) g s c sides =
      reduceWalls fuel (wallScan g (shuffleSides sides s).1 c).1
        (shuffleSides sides s).2 (wallScan g (shuffleSides sides s).1 c).2 sides := by
  simp [reduceWalls, h]

/-- After the `while (wallCount > 2)` loop of the second pass, entered with the
true wall count of a duplicate-free side list, the cell has at most 2 walls. -/
theorem reduceWalls_le (sides : List Side) (hnds : sides.Nodup) (g : Grid) (s c : Nat)
    (hc : c = countWalls g sides) :
    countWalls (reduceWalls 4 g s c sides).1 sides ≤ 2 := by
  by_cases h2 : 2 < c
  · have hperm := shuffleSides_perm sides s
    have hscan := wallScan_spec sides hnds (shuffleSides sides s).1 g c
      (fun sd hsd => hperm.mem_iff.mp hsd) hc
    have hle : (wallScan g (shuffleSides sides s).1 c).2 ≤ 2 := by
      rcases hscan.2 with h | h
      · exact h
      · rw [hscan.1, countWalls_eq_zero (fun sd hsd => h sd (hperm.mem_iff.mpr hsd))]
        omega
    rw [show (4 : Nat) = 3 + 1 from rfl, reduceWalls_step 3 g s c sides h2,
      show (3 : Nat) = 2 + 1 from rfl, reduceWalls_stop _ _ _ _ _ (by omega)]
    rw [← hscan.1]
    exact hle
  · rw [show (4 : Nat) = 3 + 1 from rfl, reduceWalls_stop g s c sides 3 h2]
    rw [← hc]
    omega

end Backrooms

namespace Backrooms

theorem cellSides_nodup (x z : Nat) : (cellSides x z).Nodup := by
  simp [cellSides, Side.mk.injEq]

theorem wallPass_fold_le :
    ∀ (cells : List (Nat × Nat)) (a : Grid × Nat) (cell : Nat × Nat), cell ∈ cells →
      countWalls (cells.foldl wallPassStep a).1 (cellSides cell.1 cell.2) ≤ 2 := by
  intro cells
  induction cells with
  | nil => intro a cell h; cases h
  | cons c0 rest ih =>
    intro a cell hmem
    simp only [List.foldl_cons]
    rcases List.mem_cons.mp hmem with heq | htl
    · subst heq
      have hstep : countWalls (wallPassStep a cell).1 (cellSides cell.1 cell.2) ≤ 2 := by
        unfold wallPassStep
        exact reduceWalls_le _ (cellSides_nodup _ _) a.1 a.2 _ rfl
      exact le_trans (countWalls_mono (wallPass_opens_fold rest (wallPassStep a cell)) _) hstep
    · exact ih (wallPassStep a c0) cell htl

theorem mem_cellList {x z gSize : Nat} (hx : x < gSize) (hz : z < gSize) :
    (x, z) ∈ cellList gSize := by
  simp only [cellList, List.mem_flatMap, List.mem_map, List.mem_range]
  exact ⟨z, hz, x, hx, rfl⟩

/-- Every cell of every generated grid has at most 2 of its 4 sides closed. -/
theorem generate_cell_walls_le (seed gSize : Nat) {x z : Nat}
    (hx : x < gSize) (hz : z < gSize) :
    countWalls (generateWallGridSeeded seed gSize) (cellSides x z) ≤ 2 := by
  unfold generateWallGridSeeded wallPass
  exact wallPass_fold_le (cellList gSize) _ (x, z) (mem_cellList hx hz)

/-- C1: in every chunk, with the fixed grid size 3, every cell of the wall grid
returned by `generateWallGrid` has at least 2 of its 4 bounding slots open and
at most 2 of its 4 bounding slots closed. -/
theorem no_dead_ends (cx cz : Int) (x z : Nat) (hx : x < 3) (hz : z < 3) :
    2 ≤ countOpen (generateWallGrid cx cz 3) (cellSides x z) ∧
      countWalls (generateWallGrid cx cz 3) (cellSides x z) ≤ 2 := by
  have hle : countWalls (generateWallGrid cx cz 3) (cellSides x z) ≤ 2 :=
    generate_cell_walls_le (chunkSeed cx cz) 3 hx hz
  have hsum := countOpen_add_countWalls (generateWallGrid cx cz 3) (cellSides x z)
  have hlen : (cellSides x z).length = 4 := rfl
  exact ⟨by omega, hle⟩

theorem no_dead_ends_witness :
    (1 : Nat) < 3 ∧ (2 : Nat) < 3 ∧
      (2 ≤ countOpen (generateWallGrid 0 0 3) (cellSides 1 2) ∧
        countWalls (generateWallGrid 0 0 3) (cellSides 1 2) ≤ 2) :=
  ⟨by decide, by decide, no_dead_ends 0 0 1 2 (by decide) (by decide)⟩

theorem boundaryStep_mid (gSize : Nat) (g : Grid) (ty : Bool) (i : Nat)
    (hi : i = 0 ∨ i = gSize) :
    boundaryStep gSize g (gSize / 2) ⟨ty, i, gSize / 2⟩ = false := by
  unfold boundaryStep
  rw [if_pos rfl]
  rcases hi with h | h <;> subst h <;> cases ty <;> simp [setSide, Side.mk.injEq]

theorem boundary_fold_mid (gSize : Nat) (ty : Bool) (i : Nat) (hi : i = 0 ∨ i = gSize) :
    ∀ (l : List Nat) (g : Grid), gSize / 2 ∈ l →
      (l.foldl (boundaryStep gSize) g) ⟨ty, i, gSize / 2⟩ = false := by
  intro l
  induction l with
  | nil => intro g h; cases h
  | cons j rest ih =>
    intro g hmem
    simp only [List.foldl_cons]
    by_cases hj : j = gSize / 2
    · subst hj
      exact opens_false (clearBoundary_fold_opens gSize rest _) _
        (boundaryStep_mid gSize g ty i hi)
    · have hrest : gSize / 2 ∈ rest := by
        rcases List.mem_cons.mp hmem with h | h
        · exact absurd h.symm hj
        · exact h
      exact ih _ hrest

theorem clearBoundary_mid (gSize : Nat) (h1 : 1 ≤ gSize) (g : Grid) (ty : Bool)
    (i : Nat) (hi : i = 0 ∨ i = gSize) :
    clearBoundary gSize g ⟨ty, i, gSize / 2⟩ = false := by
  unfold clearBoundary
  exact boundary_fold_mid gSize ty i hi (List.range gSize) g
    (List.mem_range.mpr (Nat.div_lt_self (by omega) (by omega)))

/-- C2: for every chunk, the midpoint slot of each of the four chunk edges is
open in the returned grid: the boundary stage forces the four slots open and
both repair passes only ever open further slots, so the forced-open midpoints
survive to the returned grid. -/
theorem edge_midpoints_open (cx cz : Int) (gSize : Nat) (h1 : 1 ≤ gSize) :
    generateWallGrid cx cz gSize ⟨true, 0, gSize / 2⟩ = false ∧
      generateWallGrid cx cz gSize ⟨true, gSize, gSize / 2⟩ = false ∧
      generateWallGrid cx cz gSize ⟨false, 0, gSize / 2⟩ = false ∧
      generateWallGrid cx cz gSize ⟨false, gSize, gSize / 2⟩ = false := by
  have hop := generate_opens (chunkSeed cx cz) gSize
  exact ⟨opens_false hop _ (clearBoundary_mid gSize h1 _ true 0 (Or.inl rfl)),
    opens_false hop _ (clearBoundary_mid gSize h1 _ true gSize (Or.inr rfl)),
    opens_false hop _ (clearBoundary_mid gSize h1 _ false 0 (Or.inl rfl)),
    opens_false hop _ (clearBoundary_mid gSize h1 _ false gSize (Or.inr rfl))⟩

theorem edge_midpoints_open_witness :
    (1 : Nat) ≤ 3 ∧
      (generateWallGrid 5 (-7) 3 ⟨true, 0, 1⟩ = false ∧
        generateWallGrid 5 (-7) 3 ⟨true, 3, 1⟩ = false ∧
        generateWallGrid 5 (-7) 3 ⟨false, 0, 1⟩ = false ∧
        generateWallGrid 5 (-7) 3 ⟨false, 3, 1⟩ = false) :=
  ⟨by decide, edge_midpoints_open 5 (-7) 3 (by decide)⟩

/-- C9: the boundary stage and the two constraint-repair passes only ever turn
wall slots into open slots: every wall of the returned grid was already a wall
right after the initial random sampling, and a slot open after sampling, after
the forced-open boundary stage, or after the first repair pass, is still open
in the returned grid. -/
theorem repair_passes_only_open (cx cz : Int) (gSize : Nat) (sd : Side) :
    (generateWallGrid cx cz gSize sd = true →
      (sampleGrid gSize (chunkSeed cx cz)).1 sd = true) ∧
      ((sampleGrid gSize (chunkSeed cx cz)).1 sd = false →
        generateWallGrid cx cz gSize sd = false) ∧
      (clearBoundary gSize (sampleGrid gSize (chunkSeed cx cz)).1 sd = false →
        generateWallGrid cx cz gSize sd = false) ∧
      ((openPass gSize (clearBoundary gSize (sampleGrid gSize (chunkSeed cx cz)).1,
          (sampleGrid gSize (chunkSeed cx cz)).2)).1 sd = false →
        generateWallGrid cx cz gSize sd = false) := by
  refine ⟨fun h => generate_opens_sample (chunkSeed cx cz) gSize sd h,
    fun h => opens_false (generate_opens_sample (chunkSeed cx cz) gSize) sd h,
    fun h => opens_false (generate_opens (chunkSeed cx cz) gSize) sd h,
    fun h => ?_⟩
  have hw : Opens (openPass gSize (clearBoundary gSize
      (sampleGrid gSize (chunkSeed cx cz)).1, (sampleGrid gSize (chunkSeed cx cz)).2)).1
      (generateWallGridSeeded (chunkSeed cx cz) gSize) := by
    unfold generateWallGridSeeded wallPass
    exact wallPass_opens_fold _ _
  exact opens_false hw sd h

theorem repair_passes_only_open_witness :
    generateWallGrid 0 0 3 ⟨true, 2, 2⟩ = true ∧
      (sampleGrid 3 (chunkSeed 0 0)).1 ⟨true, 2, 2⟩ = true :=
  ⟨by decide, (repair_passes_only_open 0 0 3 ⟨true, 2, 2⟩).1 (by decide)⟩

/-- C3: wall-grid generation is deterministic: rerunning `generateWallGrid` on
the same chunk coordinate and grid size yields bit-identical `hWalls`/`vWalls`
arrays (in this pure embedding the two runs are literally the same value), and
the result is a function of the coordinates only through the fixed seed mix
`((cx*73856093) ^ (cz*19349663)) >>> 0` feeding the linear-congruential
stream. -/
theorem wall_grid_deterministic (cx cz cx2 cz2 : Int) (gSize : Nat) :
    wallGridLists cx cz gSize = wallGridLists cx cz gSize ∧
      generateWallGrid cx cz gSize = generateWallGridSeeded (chunkSeed cx cz) gSize ∧
      (chunkSeed cx cz = chunkSeed cx2 cz2 →
        wallGridLists cx cz gSize = wallGridLists cx2 cz2 gSize) := by
  refine ⟨rfl, rfl, fun h => ?_⟩
  unfold wallGridLists generateWallGrid
  rw [h]

theorem wall_grid_deterministic_witness :
    chunkSeed 3 4 = chunkSeed 3 4 ∧ wallGridLists 3 4 3 = wallGridLists 3 4 3 :=
  ⟨rfl, (wall_grid_deterministic 3 4 3 4 3).2.2 rfl⟩

end Backrooms

namespace Backrooms

/-! ### Collision resolver properties -/

theorem collideStep_y (pB : Box) (q : Vec3q) (w : Wall) : (collideStep pB q w).y = q.y := by
  simp only [collideStep]
  split
  · split <;> rfl
  · rfl

theorem collideLoop_y (ws : List Wall) : ∀ (pB : Box) (q : Vec3q),
    (collideLoop pB q ws).y = q.y := by
  induction ws with
  | nil => intro pB q; rfl
  | cons w rest ih =>
    intro pB q
    simp only [collideLoop]
    rw [ih, collideStep_y]

/-- C10: collision resolution never changes the vertical coordinate: for every
input position and every wall list the corrected position returned by
`handleCollision` has the Y value of the input; only X and Z are adjusted. -/
theorem collision_preserves_y (p : Vec3q) (ws : List Wall) :
    (handleCollision p ws).y = p.y := collideLoop_y ws (playerBox p) p

/-- C5 counterexample: `handleCollision` computes the agent box once from the
original input position, so a second wall that no longer overlaps the
partially-corrected agent still gets applied; the variant described by the
spec (box recomputed from the corrected position before each wall) stops after
the first wall and returns a different position. -/
theorem collision_not_recomputed_cex :
    handleCollision ⟨0, 1, 0⟩
        [⟨9/20, 3/2, 0, 3/20, 3/2, 4⟩, ⟨1/2, 3/2, 0, 3/20, 3/2, 4⟩] = ⟨-7/20, 1, 0⟩ ∧
      handleCollisionRespec ⟨0, 1, 0⟩
        [⟨9/20, 3/2, 0, 3/20, 3/2, 4⟩, ⟨1/2, 3/2, 0, 3/20, 3/2, 4⟩] = ⟨-1/5, 1, 0⟩ ∧
      handleCollision ⟨0, 1, 0⟩
        [⟨9/20, 3/2, 0, 3/20, 3/2, 4⟩, ⟨1/2, 3/2, 0, 3/20, 3/2, 4⟩] ≠
        handleCollisionRespec ⟨0, 1, 0⟩
          [⟨9/20, 3/2, 0, 3/20, 3/2, 4⟩, ⟨1/2, 3/2, 0, 3/20, 3/2, 4⟩] := by
  refine ⟨?_, ?_, ?_⟩ <;>
    norm_num [handleCollision, handleCollisionRespec, collideLoop, collideStep,
      intersectsBox, wallBox, playerBox, PLAYER_RADIUS, Vec3q.mk.injEq]

theorem collideLoop_foldl (ws : List Wall) : ∀ (pB : Box) (q : Vec3q),
    collideLoop pB q ws = ws.foldl (fun r w => collideStep pB r w) q := by
  induction ws with
  | nil => intro pB q; rfl
  | cons w rest ih =>
    intro pB q
    simp only [collideLoop, List.foldl_cons]
    exact ih pB (collideStep pB q w)

/-- C5 amended: per-wall corrections are applied sequentially in wall-list
order (a left fold carrying the corrected position), but every wall's
intersection test and overlap extents are computed against the box of the
original input position, computed once before the loop; only the push
direction reads the partially-corrected coordinates. -/
theorem collision_sequential_original_box (p : Vec3q) (ws : List Wall) :
    handleCollision p ws = ws.foldl (fun q w => collideStep (playerBox p) q w) p :=
  collideLoop_foldl ws (playerBox p) p

/-- C6 counterexample: an agent at the origin fully enclosed by the single
wall box centered at the origin with half-extents `(2, 3/2, 4)` is pushed to
`(0, 1, -1)`, whose agent box still intersects (indeed still lies inside) the
wall box: the claimed post-state "outside that wall's box" fails, and with
full enclosure there is no strictly smaller overlap axis (both horizontal
overlap extents equal `2 * PLAYER_RADIUS`). -/
theorem collision_containment_cex :
    enclosedBy ⟨0, 1, 0⟩ ⟨0, 3/2, 0, 2, 3/2, 4⟩ ∧
      handleCollision ⟨0, 1, 0⟩ [⟨0, 3/2, 0, 2, 3/2, 4⟩] = ⟨0, 1, -1⟩ ∧
      intersectsBox (playerBox (handleCollision ⟨0, 1, 0⟩ [⟨0, 3/2, 0, 2, 3/2, 4⟩]))
        (wallBox ⟨0, 3/2, 0, 2, 3/2, 4⟩) = true := by
  refine ⟨?_, ?_, ?_⟩ <;>
    norm_num [enclosedBy, handleCollision, collideLoop, collideStep,
      intersectsBox, wallBox, playerBox, PLAYER_RADIUS, Vec3q.mk.injEq]

/-- C6 amended: for an agent box fully enclosed by a single wall box the X and
Z overlap extents are equal (both `2 * PLAYER_RADIUS`), so the `size.x <
size.z` tie-break pushes along Z, by exactly `2 * PLAYER_RADIUS`, away from
the wall's Z center (towards -Z on a tie); X and Y are unchanged, and the
agent need not end up outside the wall's box. -/
theorem collision_enclosed_pushes_z (p : Vec3q) (w : Wall) (h : enclosedBy p w) :
    handleCollision p [w] =
      { p with z := p.z + (if p.z > w.cz then 1 else -1) * (2 * PLAYER_RADIUS) } := by
  obtain ⟨h1, h2, h3, h4, h5, h6⟩ := h
  have hpx : (playerBox p).minX ≤ (playerBox p).maxX := by
    simp only [playerBox, PLAYER_RADIUS]
    linarith
  have hpy : (playerBox p).minY ≤ (playerBox p).maxY := by
    simp only [playerBox]
    linarith
  have hpz : (playerBox p).minZ ≤ (playerBox p).maxZ := by
    simp only [playerBox, PLAYER_RADIUS]
    linarith
  have hint : intersectsBox (playerBox p) (wallBox w) = true := by
    simp only [intersectsBox, Bool.and_eq_true, decide_eq_true_eq]
    refine ⟨⟨⟨⟨⟨?_, ?_⟩, ?_⟩, ?_⟩, ?_⟩, ?_⟩ <;> linarith
  have hsx : min (playerBox p).maxX (wallBox w).maxX -
      max (playerBox p).minX (wallBox w).minX = 2 * PLAYER_RADIUS := by
    rw [min_eq_left h2, max_eq_left h1]
    simp only [playerBox]
    ring
  have hsz : min (playerBox p).maxZ (wallBox w).maxZ -
      max (playerBox p).minZ (wallBox w).minZ = 2 * PLAYER_RADIUS := by
    rw [min_eq_left h6, max_eq_left h5]
    simp only [playerBox]
    ring
  show collideLoop (playerBox p) p [w] = _
  simp only [collideLoop, collideStep]
  rw [if_pos hint, hsx, hsz, if_neg (lt_irrefl (2 * PLAYER_RADIUS))]

theorem collision_enclosed_pushes_z_witness :
    enclosedBy ⟨0, 1, 0⟩ ⟨0, 3/2, 0, 2, 3/2, 4⟩ ∧
      handleCollision ⟨0, 1, 0⟩ [⟨0, 3/2, 0, 2, 3/2, 4⟩] = ⟨0, 1, -1⟩ := by
  have henc : enclosedBy ⟨0, 1, 0⟩ ⟨0, 3/2, 0, 2, 3/2, 4⟩ := by
    norm_num [enclosedBy, playerBox, wallBox, PLAYER_RADIUS]
  refine ⟨henc, ?_⟩
  rw [collision_enclosed_pushes_z ⟨0, 1, 0⟩ ⟨0, 3/2, 0, 2, 3/2, 4⟩ henc]
  norm_num [PLAYER_RADIUS, Vec3q.mk.injEq]

end Backrooms

namespace Backrooms

/-! ### Line-of-sight properties -/

theorem decide_and_eq (p q : Prop) [Decidable p] [Decidable q] :
    (decide p && decide q) = decide (p ∧ q) := by
  by_cases hp : p <;> by_cases hq : q <;> simp [hp, hq]

/-- Pure interval arithmetic behind the symmetry argument: substituting the
slab parameters `1 - a` for `a` (the reversed segment) mirrors the blocked
test exactly. -/
theorem clipBlocked_reverse (a1 a2 b1 b2 : ℚ) :
    clipBlocked (1 - a1) (1 - a2) (1 - b1) (1 - b2) = clipBlocked a1 a2 b1 b2 := by
  unfold clipBlocked
  have hA : max 0 (min (1 - a1) (1 - a2)) = 1 - min 1 (max a1 a2) := by
    rw [min_sub_sub_left]
    rcases le_total 1 (max a1 a2) with h | h
    · rw [min_eq_left h, max_eq_left (by linarith)]
      norm_num
    · rw [min_eq_right h, max_eq_right (by linarith)]
  have hB : min 1 (max (1 - a1) (1 - a2)) = 1 - max 0 (min a1 a2) := by
    rw [max_sub_sub_left]
    rcases le_total (min a1 a2) 0 with h | h
    · rw [max_eq_left h, min_eq_left (by linarith)]
      norm_num
    · rw [max_eq_right h, min_eq_right (by linarith)]
  have hM : max (max 0 (min (1 - a1) (1 - a2))) (min (1 - b1) (1 - b2)) =
      1 - min (min 1 (max a1 a2)) (max b1 b2) := by
    rw [hA, min_sub_sub_left, max_sub_sub_left]
  have hN : min (min 1 (max (1 - a1) (1 - a2))) (max (1 - b1) (1 - b2)) =
      1 - max (max 0 (min a1 a2)) (min b1 b2) := by
    rw [hB, max_sub_sub_left, min_sub_sub_left]
  rw [hM, hN]
  simp only [sub_le_sub_iff_left, sub_lt_self_iff, sub_pos]
  rw [decide_and_eq, decide_and_eq, decide_and_eq, decide_and_eq]
  exact decide_eq_decide.mpr (by tauto)

theorem slabT1_reverse (m f t : ℚ) (h : t - f ≠ 0) :
    slabT1 m t (f - t) = 1 - slabT1 m f (t - f) := by
  have h2 : f - t ≠ 0 := fun h0 => h (by linarith)
  unfold slabT1
  field_simp
  ring

/-- One wall blocks the forward segment iff it blocks the reversed segment,
whenever neither direction component takes the degenerate near-axis branch. -/
theorem wallBlocks_symm (fx fz tx tz : ℚ) (w : Wall)
    (hx : 100000000 * ((tx - fx) * (tx - fx)) >
      (tx - fx) * (tx - fx) + (tz - fz) * (tz - fz))
    (hz : 100000000 * ((tz - fz) * (tz - fz)) >
      (tx - fx) * (tx - fx) + (tz - fz) * (tz - fz)) :
    wallBlocks fx fz tx tz w = wallBlocks tx tz fx fz w := by
  have hsqx : (fx - tx) * (fx - tx) = (tx - fx) * (tx - fx) := by ring
  have hsqz : (fz - tz) * (fz - tz) = (tz - fz) * (tz - fz) := by ring
  have hx2 : 100000000 * ((fx - tx) * (fx - tx)) >
      (fx - tx) * (fx - tx) + (fz - tz) * (fz - tz) := by
    rw [hsqx, hsqz]
    exact hx
  have hz2 : 100000000 * ((fz - tz) * (fz - tz)) >
      (fx - tx) * (fx - tx) + (fz - tz) * (fz - tz) := by
    rw [hsqx, hsqz]
    exact hz
  have hdx : tx - fx ≠ 0 := by
    intro h0
    rw [h0] at hx
    nlinarith [mul_self_nonneg (tz - fz)]
  have hdz : tz - fz ≠ 0 := by
    intro h0
    rw [h0] at hz
    nlinarith [mul_self_nonneg (tx - fx)]
  simp only [wallBlocks]
  rw [if_pos hx, if_pos hz, if_pos hx2, if_pos hz2,
    slabT1_reverse (wallBox w).minX fx tx hdx, slabT1_reverse (wallBox w).maxX fx tx hdx,
    slabT1_reverse (wallBox w).minZ fz tz hdz, slabT1_reverse (wallBox w).maxZ fz tz hdz,
    clipBlocked_reverse]

theorem list_all_congr {α : Type} (l : List α) (f g : α → Bool)
    (h : ∀ a ∈ l, f a = g a) : l.all f = l.all g := by
  induction l with
  | nil => rfl
  | cons x xs ih =>
    simp only [List.all_cons]
    rw [h x (by simp), ih (fun a ha => h a (by simp [ha]))]

/-- C7 amended: the line-of-sight query is symmetric in its endpoints whenever
neither axis takes the degenerate near-axis-parallel branch, i.e. whenever
both direction components exceed `0.0001` of the segment length (in exact
squared form: `10^8 * dir^2 > len^2` on both axes); when an axis is
degenerate, the containment check reads only the `from` endpoint and symmetry
can fail. -/
theorem los_symmetric_nondegenerate (fx fz tx tz : ℚ) (ws : List Wall)
    (hx : 100000000 * ((tx - fx) * (tx - fx)) >
      (tx - fx) * (tx - fx) + (tz - fz) * (tz - fz))
    (hz : 100000000 * ((tz - fz) * (tz - fz)) >
      (tx - fx) * (tx - fx) + (tz - fz) * (tz - fz)) :
    hasLineOfSight fx fz tx tz ws = hasLineOfSight tx tz fx fz ws := by
  have hlen : (fx - tx) * (fx - tx) + (fz - tz) * (fz - tz)
      = (tx - fx) * (tx - fx) + (tz - fz) * (tz - fz) := by ring
  simp only [hasLineOfSight]
  rw [hlen]
  split
  · rfl
  · exact list_all_congr ws _ _
      (fun w _ => congrArg (fun b => !b) (wallBlocks_symm fx fz tx tz w hx hz))

theorem los_symmetric_nondegenerate_witness :
    (100000000 * (((3 : ℚ) - 0) * ((3 : ℚ) - 0)) >
        ((3 : ℚ) - 0) * ((3 : ℚ) - 0) + ((4 : ℚ) - 0) * ((4 : ℚ) - 0)) ∧
      (100000000 * (((4 : ℚ) - 0) * ((4 : ℚ) - 0)) >
        ((3 : ℚ) - 0) * ((3 : ℚ) - 0) + ((4 : ℚ) - 0) * ((4 : ℚ) - 0)) ∧
      hasLineOfSight 0 0 3 4 [⟨3/20, 3/2, 0, 3/20, 3/2, 4⟩] =
        hasLineOfSight 3 4 0 0 [⟨3/20, 3/2, 0, 3/20, 3/2, 4⟩] :=
  ⟨by norm_num, by norm_num,
    los_symmetric_nondegenerate 0 0 3 4 [⟨3/20, 3/2, 0, 3/20, 3/2, 4⟩]
      (by norm_num) (by norm_num)⟩

/-- C7 counterexample: a segment almost parallel to Z (direction
`(0.01, 200)`, below the `0.0001`-of-length threshold on X) starting at
`x = 0.295` inside the X slab of a wall box spanning `x ∈ [0, 0.3]`,
`z ∈ [-4, 4]`, and ending at `x = 0.305` outside it: the forward query is
blocked, but the reversed query skips the wall in the degenerate X branch and
reports clear sight. -/
theorem los_symmetry_cex :
    hasLineOfSight (59/200) (-100) (61/200) 100 [⟨3/20, 3/2, 0, 3/20, 3/2, 4⟩] = false ∧
      hasLineOfSight (61/200) 100 (59/200) (-100) [⟨3/20, 3/2, 0, 3/20, 3/2, 4⟩] = true := by
  constructor <;>
    norm_num [hasLineOfSight, wallBlocks, wallBox, slabT1, clipBlocked, clipBlockedOne,
      List.all, min_def, max_def]

end Backrooms

namespace Backrooms

/-! ### Streaming controller: key bookkeeping lemmas -/

theorem hasKey_iff (m : List ((Int × Int) × ChunkRec)) (k : Int × Int) :
    hasKey m k = true ↔ k ∈ m.map Prod.fst := by
  simp only [hasKey, List.any_eq_true, decide_eq_true_eq, List.mem_map]

theorem hasKey_addChunk (d : GenDecisions) (x z : Int) (s : WState) (k : Int × Int)
    (h : hasKey s.chunks k = true) : hasKey (addChunk d x z s).chunks k = true := by
  rw [hasKey_iff] at h ⊢
  simp only [addChunk, List.map_append, List.mem_append]
  exact Or.inl h

theorem hasKey_addChunk_self (d : GenDecisions) (x z : Int) (s : WState) :
    hasKey (addChunk d x z s).chunks (x, z) = true := by
  rw [hasKey_iff]
  simp [addChunk]

theorem pass1Step_act (d : GenDecisions) (fr : Int → Int → Bool) (px pz : Int)
    (acc : WState × List (Int × Int)) (xz : Int × Int) :
    (pass1Step d fr px pz acc xz).2 = actStep fr px pz acc.2 xz := by
  simp only [pass1Step, actStep]
  split
  · split <;> rfl
  · rfl

theorem pass1_fold_act (d : GenDecisions) (fr : Int → Int → Bool) (px pz : Int) :
    ∀ (l : List (Int × Int)) (p : WState × List (Int × Int)),
      (l.foldl (pass1Step d fr px pz) p).2 = l.foldl (actStep fr px pz) p.2 := by
  intro l
  induction l with
  | nil => intro p; rfl
  | cons xz rest ih =>
    intro p
    simp only [List.foldl_cons]
    rw [ih, pass1Step_act]

theorem loadPass_act (d : GenDecisions) (fr : Int → Int → Bool) (px pz : Int)
    (s : WState) : (loadPass d fr px pz s).2 = activeList fr px pz :=
  pass1_fold_act d fr px pz (coordList px pz) (s, [])

theorem actStep_mem (fr : Int → Int → Bool) (px pz : Int)
    (a : List (Int × Int)) (xz y : Int × Int) :
    y ∈ actStep fr px pz a xz ↔
      y ∈ a ∨ (y = xz ∧ shouldLoad fr xz.1 xz.2 px pz = true) := by
  unfold actStep
  split
  · rename_i hsl
    split
    · rename_i hmem
      constructor
      · exact Or.inl
      · rintro (h | ⟨h, _⟩)
        · exact h
        · rw [h]
          exact hmem
    · simp only [List.mem_append, List.mem_singleton]
      constructor
      · rintro (h | h)
        · exact Or.inl h
        · exact Or.inr ⟨h, hsl⟩
      · rintro (h | ⟨h, _⟩)
        · exact Or.inl h
        · exact Or.inr h
  · rename_i hsl
    constructor
    · exact Or.inl
    · rintro (h | ⟨_, h2⟩)
      · exact h
      · exact absurd h2 hsl

theorem fold_actStep_mem (fr : Int → Int → Bool) (px pz : Int) :
    ∀ (l a : List (Int × Int)) (y : Int × Int),
      y ∈ l.foldl (actStep fr px pz) a ↔
        y ∈ a ∨ (y ∈ l ∧ shouldLoad fr y.1 y.2 px pz = true) := by
  intro l
  induction l with
  | nil => intro a y; simp
  | cons xz rest ih =>
    intro a y
    simp only [List.foldl_cons]
    rw [ih, actStep_mem]
    constructor
    · rintro ((h | ⟨h1, h2⟩) | ⟨h1, h2⟩)
      · exact Or.inl h
      · subst h1
        exact Or.inr ⟨List.mem_cons_self _ _, h2⟩
      · exact Or.inr ⟨List.mem_cons_of_mem _ h1, h2⟩
    · rintro (h | ⟨h1, h2⟩)
      · exact Or.inl (Or.inl h)
      · rcases List.mem_cons.mp h1 with h3 | h3
        · subst h3
          exact Or.inl (Or.inr ⟨rfl, h2⟩)
        · exact Or.inr ⟨h3, h2⟩

theorem activeList_mem (fr : Int → Int → Bool) (px pz : Int) (y : Int × Int) :
    y ∈ activeList fr px pz ↔
      y ∈ coordList px pz ∧ shouldLoad fr y.1 y.2 px pz = true := by
  unfold activeList
  rw [fold_actStep_mem]
  simp

theorem pass1Step_hasKey_mono (d : GenDecisions) (fr : Int → Int → Bool)
    (px pz : Int) (p : WState × List (Int × Int)) (xz k : Int × Int)
    (h : hasKey p.1.chunks k = true) :
    hasKey (pass1Step d fr px pz p xz).1.chunks k = true := by
  simp only [pass1Step]
  split
  · split
    · exact h
    · exact hasKey_addChunk _ _ _ _ _ h
  · exact h

theorem pass1_fold_hasKey_mono (d : GenDecisions) (fr : Int → Int → Bool)
    (px pz : Int) (k : Int × Int) :
    ∀ (l : List (Int × Int)) (p : WState × List (Int × Int)),
      hasKey p.1.chunks k = true →
      hasKey ((l.foldl (pass1Step d fr px pz) p).1.chunks) k = true := by
  intro l
  induction l with
  | nil => intro p h; exact h
  | cons xz rest ih =>
    intro p h
    simp only [List.foldl_cons]
    exact ih _ (pass1Step_hasKey_mono d fr px pz p xz k h)

theorem pass1_fold_hasKey_load (d : GenDecisions) (fr : Int → Int → Bool)
    (px pz : Int) (k : Int × Int) :
    ∀ (l : List (Int × Int)) (p : WState × List (Int × Int)),
      k ∈ l → shouldLoad fr k.1 k.2 px pz = true →
      hasKey ((l.foldl (pass1Step d fr px pz) p).1.chunks) k = true := by
  intro l
  induction l with
  | nil => intro p h; cases h
  | cons xz rest ih =>
    intro p hmem hsl
    simp only [List.foldl_cons]
    rcases List.mem_cons.mp hmem with heq | htl
    · subst heq
      apply pass1_fold_hasKey_mono
      simp only [pass1Step]
      rw [if_pos hsl]
      split
      · rename_i hk
        exact hk
      · show hasKey (addChunk d k.1 k.2 p.1).chunks k = true
        have h2 := hasKey_addChunk_self d k.1 k.2 p.1
        rwa [Prod.mk.eta] at h2
    · exact ih _ htl hsl

theorem hasKey_removeKey_ne (m : List ((Int × Int) × ChunkRec)) (k k0 : Int × Int)
    (hne : k ≠ k0) (h : hasKey m k = true) : hasKey (removeKey m k0) k = true := by
  rw [hasKey_iff] at h ⊢
  rcases List.mem_map.mp h with ⟨e, he, hk⟩
  refine List.mem_map.mpr ⟨e, ?_, hk⟩
  simp only [removeKey, List.mem_filter, decide_eq_true_eq]
  exact ⟨he, by rw [hk]; exact hne⟩

theorem evictPass_hasKey_act (act : List (Int × Int)) (k : Int × Int) (hk : k ∈ act) :
    ∀ (l : List ((Int × Int) × ChunkRec)) (s : WState),
      hasKey s.chunks k = true → hasKey (evictPass act l s).chunks k = true := by
  intro l
  induction l with
  | nil => intro s h; exact h
  | cons e rest ih =>
    intro s h
    obtain ⟨k0, c⟩ := e
    simp only [evictPass]
    split
    · exact ih s h
    · rename_i hk0
      refine ih _ ?_
      show hasKey (removeKey s.chunks k0) k = true
      exact hasKey_removeKey_ne s.chunks k k0 (fun he => hk0 (he ▸ hk)) h

theorem evictPass_mem_chunks (act : List (Int × Int)) :
    ∀ (l : List ((Int × Int) × ChunkRec)) (s : WState) (e : (Int × Int) × ChunkRec),
      e ∈ (evictPass act l s).chunks →
      e ∈ s.chunks ∧ (e.1 ∈ act ∨ e.1 ∉ l.map Prod.fst) := by
  intro l
  induction l with
  | nil =>
    intro s e h
    exact ⟨h, Or.inr (by simp)⟩
  | cons e0 rest ih =>
    intro s e h
    obtain ⟨k0, c⟩ := e0
    simp only [evictPass] at h
    split at h
    · rename_i hk0
      obtain ⟨he, hor⟩ := ih s e h
      refine ⟨he, ?_⟩
      rcases hor with h1 | h1
      · exact Or.inl h1
      · by_cases h2 : e.1 = k0
        · exact Or.inl (h2 ▸ hk0)
        · refine Or.inr ?_
          simp only [List.map_cons, List.mem_cons]
          rintro (h3 | h3)
          · exact h2 h3
          · exact h1 h3
    · rename_i hk0
      obtain ⟨he, hor⟩ := ih _ e h
      have he2 : e ∈ s.chunks ∧ e.1 ≠ k0 := by
        have := he
        simp only [evictChunk, removeKey, List.mem_filter, decide_eq_true_eq] at this
        exact this
      refine ⟨he2.1, ?_⟩
      rcases hor with h1 | h1
      · exact Or.inl h1
      · refine Or.inr ?_
        simp only [List.map_cons, List.mem_cons]
        rintro (h3 | h3)
        · exact he2.2 h3
        · exact h1 h3

theorem pass1_fold_id (d : GenDecisions) (fr : Int → Int → Bool) (px pz : Int) :
    ∀ (l : List (Int × Int)) (s : WState) (acc : List (Int × Int)),
      (∀ xz ∈ l, shouldLoad fr xz.1 xz.2 px pz = true → hasKey s.chunks xz = true) →
      l.foldl (pass1Step d fr px pz) (s, acc) = (s, l.foldl (actStep fr px pz) acc) := by
  intro l
  induction l with
  | nil => intro s acc _; rfl
  | cons xz rest ih =>
    intro s acc hload
    simp only [List.foldl_cons]
    have hstep : pass1Step d fr px pz (s, acc) xz = (s, actStep fr px pz acc xz) := by
      simp only [pass1Step, actStep]
      split
      · rename_i hsl
        rw [if_pos (hload xz (List.mem_cons_self _ _) hsl)]
      · rfl
    rw [hstep]
    exact ih s _ (fun y hy hsl => hload y (List.mem_cons_of_mem _ hy) hsl)

theorem evictPass_id (act : List (Int × Int)) :
    ∀ (l : List ((Int × Int) × ChunkRec)) (s : WState),
      (∀ e ∈ l, e.1 ∈ act) → evictPass act l s = s := by
  intro l
  induction l with
  | nil => intro s _; rfl
  | cons e0 rest ih =>
    intro s hact
    obtain ⟨k0, c⟩ := e0
    simp only [evictPass]
    rw [if_pos (hact (k0, c) (List.mem_cons_self _ _))]
    exact ih s (fun e he => hact e (List.mem_cons_of_mem _ he))

/-- C8: `updateChunks` is idempotent for a fixed camera state: with the camera
position and frustum unchanged, a second call leaves the resident chunk map,
the walls list, the light-panel list and the phone-position list exactly as
the first call left them — nothing is generated, rebuilt or evicted. -/
theorem updateChunks_idempotent (d : GenDecisions) (fr : Int → Int → Bool)
    (camX camZ : ℚ) (s : WState) :
    updateChunks d fr camX camZ (updateChunks d fr camX camZ s) =
      updateChunks d fr camX camZ s := by
  simp only [updateChunks]
  set px := ⌊camX / CHUNK_SIZE⌋ with hpx
  set pz := ⌊camZ / CHUNK_SIZE⌋ with hpz
  set s1 := evictPass (loadPass d fr px pz s).2 (loadPass d fr px pz s).1.chunks
    (loadPass d fr px pz s).1 with hs1
  have hkeys : ∀ k ∈ activeList fr px pz, hasKey s1.chunks k = true := by
    intro k hk
    obtain ⟨hc, hsl⟩ := (activeList_mem fr px pz k).mp hk
    have h1 : hasKey (loadPass d fr px pz s).1.chunks k = true :=
      pass1_fold_hasKey_load d fr px pz k (coordList px pz) (s, []) hc hsl
    rw [hs1]
    exact evictPass_hasKey_act (loadPass d fr px pz s).2 k
      (by rw [loadPass_act]; exact hk) (loadPass d fr px pz s).1.chunks _ h1
  have hres : ∀ e ∈ s1.chunks, e.1 ∈ activeList fr px pz := by
    intro e he
    obtain ⟨he2, hor⟩ := evictPass_mem_chunks (loadPass d fr px pz s).2
      (loadPass d fr px pz s).1.chunks (loadPass d fr px pz s).1 e (hs1 ▸ he)
    rcases hor with h1 | h1
    · rw [← loadPass_act d fr px pz s]
      exact h1
    · exact absurd (List.mem_map.mpr ⟨e, he2, rfl⟩) h1
  have hload2 : loadPass d fr px pz s1 = (s1, activeList fr px pz) := by
    unfold loadPass activeList
    exact pass1_fold_id d fr px pz (coordList px pz) s1 []
      (fun xz hc hsl => hkeys xz ((activeList_mem fr px pz xz).mpr ⟨hc, hsl⟩))
  rw [hload2]
  exact evictPass_id (activeList fr px pz) s1.chunks s1 hres

end Backrooms

namespace Backrooms

/-! ### Streaming controller: exactness of the global collections -/

theorem chunkWalls_owner (d : GenDecisions) (x z : Int) (p : Prim)
    (h : p ∈ chunkWalls d x z) : p.ownerX = x ∧ p.ownerZ = z := by
  simp only [chunkWalls, List.mem_flatMap, List.mem_range] at h
  obtain ⟨i, _, j, _, hp⟩ := h
  rcases List.mem_append.mp hp with hp1 | hp1 <;> split at hp1
  · rw [List.mem_singleton] at hp1
    subst hp1
    exact ⟨rfl, rfl⟩
  · cases hp1
  · rw [List.mem_singleton] at hp1
    subst hp1
    exact ⟨rfl, rfl⟩
  · cases hp1

theorem chunkPanels_owner (x z : Int) (p : Prim)
    (h : p ∈ chunkPanels x z) : p.ownerX = x ∧ p.ownerZ = z := by
  simp only [chunkPanels, List.mem_flatMap, List.mem_range, List.mem_map] at h
  obtain ⟨i, _, j, _, hp⟩ := h
  subst hp
  exact ⟨rfl, rfl⟩

theorem chunkPhones_owner (d : GenDecisions) (x z : Int) (p : Prim)
    (h : p ∈ chunkPhones d x z) : p.ownerX = x ∧ p.ownerZ = z := by
  simp only [chunkPhones] at h
  split at h
  · simp only [List.mem_filterMap, List.mem_range] at h
    obtain ⟨n, _, hp⟩ := h
    split at hp
    · cases hp
      exact ⟨rfl, rfl⟩
    · cases hp
  · cases h

/-- A primitive of one built chunk never appears in the same-kind list of a
chunk with a different coordinate (owner tags differ; in the source, distinct
chunks own distinct mesh objects). -/
theorem built_not_mem {d : GenDecisions} {k1 k2 : Int × Int} (hne : k1 ≠ k2)
    (f : ChunkRec → List Prim)
    (hf : ∀ (x z : Int) (p : Prim), p ∈ f (buildChunk d x z) →
      p.ownerX = x ∧ p.ownerZ = z)
    (p : Prim) (hp : p ∈ f (buildChunk d k1.1 k1.2)) :
    p ∉ f (buildChunk d k2.1 k2.2) := by
  intro hp2
  obtain ⟨h1, h2⟩ := hf k1.1 k1.2 p hp
  obtain ⟨h3, h4⟩ := hf k2.1 k2.2 p hp2
  apply hne
  have e1 : k1.1 = k2.1 := by rw [← h1, h3]
  have e2 : k1.2 = k2.2 := by rw [← h2, h4]
  exact Prod.ext e1 e2

theorem removeKey_eq_self (m : List ((Int × Int) × ChunkRec)) (k : Int × Int)
    (h : ∀ e ∈ m, e.1 ≠ k) : removeKey m k = m :=
  List.filter_eq_self.mpr (fun e he => decide_eq_true (h e he))

theorem keys_nodup_tail {e : (Int × Int) × ChunkRec}
    {rest : List ((Int × Int) × ChunkRec)}
    (h : ((e :: rest).map Prod.fst).Nodup) :
    (rest.map Prod.fst).Nodup ∧ ∀ e2 ∈ rest, e2.1 ≠ e.1 := by
  simp only [List.map_cons, List.nodup_cons] at h
  refine ⟨h.2, fun e2 he2 hk => h.1 ?_⟩
  rw [← hk]
  exact List.mem_map.mpr ⟨e2, he2, rfl⟩

/-- Rebuilding the concatenated per-chunk lists after deleting the entry of
`k` equals filtering out the built primitives of `k`: the core of eviction
exactness. -/
theorem flatten_removeKey (d : GenDecisions) (f : ChunkRec → List Prim)
    (hf : ∀ (x z : Int) (p : Prim), p ∈ f (buildChunk d x z) →
      p.ownerX = x ∧ p.ownerZ = z)
    (k : Int × Int) (c : ChunkRec) (hc : c = buildChunk d k.1 k.2) :
    ∀ (m : List ((Int × Int) × ChunkRec)), (m.map Prod.fst).Nodup →
      (∀ e ∈ m, e.2 = buildChunk d e.1.1 e.1.2) →
      ((removeKey m k).map (fun e => f e.2)).flatten =
        ((m.map (fun e => f e.2)).flatten).filter (fun p => decide (p ∉ f c)) := by
  intro m
  induction m with
  | nil => intro _ _; rfl
  | cons e rest ih =>
    intro hnd hcons
    obtain ⟨hndr, hner⟩ := keys_nodup_tail hnd
    have hcr : ∀ e2 ∈ rest, e2.2 = buildChunk d e2.1.1 e2.1.2 :=
      fun e2 he2 => hcons e2 (List.mem_cons_of_mem _ he2)
    by_cases hek : e.1 = k
    · have hrem : removeKey (e :: rest) k = rest := by
        have h1 : removeKey (e :: rest) k = removeKey rest k := by
          simp [removeKey, List.filter_cons, hek]
        rw [h1]
        exact removeKey_eq_self rest k (fun e2 he2 => by
          rw [← hek]
          exact hner e2 he2)
      rw [hrem]
      simp only [List.map_cons, List.flatten_cons, List.filter_append]
      have hec : e.2 = c := by
        rw [hcons e (List.mem_cons_self _ _), hc, hek]
      have hnil : (f e.2).filter (fun p => decide (p ∉ f c)) = [] := by
        rw [List.filter_eq_nil_iff]
        intro p hp
        rw [hec] at hp
        simp [hp]
      have hrestid : ((rest.map (fun e => f e.2)).flatten).filter
          (fun p => decide (p ∉ f c)) = (rest.map (fun e => f e.2)).flatten := by
        rw [List.filter_eq_self]
        intro p hp
        rcases List.mem_flatten.mp hp with ⟨lp, hlp, hplp⟩
        rcases List.mem_map.mp hlp with ⟨e2, he2, heq⟩
        have hpe2 : p ∈ f (buildChunk d e2.1.1 e2.1.2) := by
          rw [← hcr e2 he2, heq]
          exact hplp
        have hne2 : e2.1 ≠ k := by
          rw [← hek]
          exact hner e2 he2
        rw [hc]
        exact decide_eq_true (built_not_mem hne2 f hf p hpe2)
      rw [hnil, hrestid, List.nil_append]
    · have hrem : removeKey (e :: rest) k = e :: removeKey rest k := by
        simp [removeKey, List.filter_cons, hek]
      rw [hrem]
      simp only [List.map_cons, List.flatten_cons, List.filter_append]
      have heid : (f e.2).filter (fun p => decide (p ∉ f c)) = f e.2 := by
        rw [List.filter_eq_self]
        intro p hp
        have hpe : p ∈ f (buildChunk d e.1.1 e.1.2) := by
          rw [← hcons e (List.mem_cons_self _ _)]
          exact hp
        rw [hc]
        exact decide_eq_true (built_not_mem hek f hf p hpe)
      rw [heid, ih hndr hcr]

theorem evictChunk_consistent (d : GenDecisions) (k : Int × Int) (c : ChunkRec)
    (hc : c = buildChunk d k.1 k.2) (s : WState) (h : chunksConsistent d s) :
    chunksConsistent d (evictChunk k c s) := by
  obtain ⟨hnd, hcons, hw, hl, hp⟩ := h
  refine ⟨?_, ?_, ?_, ?_, ?_⟩
  · exact hnd.sublist ((List.filter_sublist _).map Prod.fst)
  · intro e he
    exact hcons e (List.mem_of_mem_filter he)
  · show s.walls.filter _ = _
    rw [hw]
    exact (flatten_removeKey d (fun r => r.cwalls)
      (fun x z p hp2 => chunkWalls_owner d x z p hp2) k c hc s.chunks hnd hcons).symm
  · show s.lightPanels.filter _ = _
    rw [hl]
    exact (flatten_removeKey d (fun r => r.cpanels)
      (fun x z p hp2 => chunkPanels_owner x z p hp2) k c hc s.chunks hnd hcons).symm
  · show s.phonePositions.filter _ = _
    rw [hp]
    exact (flatten_removeKey d (fun r => r.cphones)
      (fun x z p hp2 => chunkPhones_owner d x z p hp2) k c hc s.chunks hnd hcons).symm

theorem addChunk_consistent (d : GenDecisions) (x z : Int) (s : WState)
    (h : chunksConsistent d s) (hfresh : ¬ hasKey s.chunks (x, z) = true) :
    chunksConsistent d (addChunk d x z s) := by
  obtain ⟨hnd, hcons, hw, hl, hp⟩ := h
  have hnotmem : (x, z) ∉ s.chunks.map Prod.fst :=
    fun hm => hfresh ((hasKey_iff _ _).mpr hm)
  refine ⟨?_, ?_, ?_, ?_, ?_⟩
  · simp only [addChunk, List.map_append, List.map_cons, List.map_nil]
    rw [List.nodup_append]
    refine ⟨hnd, by simp, ?_⟩
    intro a ha hb
    rw [List.mem_singleton] at hb
    subst hb
    exact hnotmem ha
  · intro e he
    rcases List.mem_append.mp he with h1 | h1
    · exact hcons e h1
    · rw [List.mem_singleton] at h1
      subst h1
      rfl
  · simp only [addChunk, List.map_append, List.flatten_append, List.map_cons,
      List.map_nil, List.flatten_cons, List.flatten_nil, List.append_nil]
    rw [hw]
  · simp only [addChunk, List.map_append, List.flatten_append, List.map_cons,
      List.map_nil, List.flatten_cons, List.flatten_nil, List.append_nil]
    rw [hl]
  · simp only [addChunk, List.map_append, List.flatten_append, List.map_cons,
      List.map_nil, List.flatten_cons, List.flatten_nil, List.append_nil]
    rw [hp]

theorem pass1Step_consistent (d : GenDecisions) (fr : Int → Int → Bool)
    (px pz : Int) (p : WState × List (Int × Int)) (xz : Int × Int)
    (h : chunksConsistent d p.1) :
    chunksConsistent d (pass1Step d fr px pz p xz).1 := by
  simp only [pass1Step]
  split
  · split
    · exact h
    · rename_i hk
      exact addChunk_consistent d xz.1 xz.2 p.1 h hk
  · exact h

theorem pass1_fold_consistent (d : GenDecisions) (fr : Int → Int → Bool)
    (px pz : Int) :
    ∀ (l : List (Int × Int)) (p : WState × List (Int × Int)),
      chunksConsistent d p.1 →
      chunksConsistent d ((l.foldl (pass1Step d fr px pz) p).1) := by
  intro l
  induction l with
  | nil => intro p h; exact h
  | cons xz rest ih =>
    intro p h
    simp only [List.foldl_cons]
    exact ih _ (pass1Step_consistent d fr px pz p xz h)

theorem evictPass_consistent (d : GenDecisions) (act : List (Int × Int)) :
    ∀ (l : List ((Int × Int) × ChunkRec)) (s : WState),
      chunksConsistent d s → (∀ e ∈ l, e.2 = buildChunk d e.1.1 e.1.2) →
      chunksConsistent d (evictPass act l s) := by
  intro l
  induction l with
  | nil => intro s h _; exact h
  | cons e0 rest ih =>
    intro s h hl
    obtain ⟨k0, c⟩ := e0
    have hc : c = buildChunk d k0.1 k0.2 := hl (k0, c) (List.mem_cons_self _ _)
    simp only [evictPass]
    split
    · exact ih s h (fun e he => hl e (List.mem_cons_of_mem _ he))
    · exact ih _ (evictChunk_consistent d k0 c hc s h)
        (fun e he => hl e (List.mem_cons_of_mem _ he))

theorem updateChunks_consistent (d : GenDecisions) (fr : Int → Int → Bool)
    (camX camZ : ℚ) (s : WState) (h : chunksConsistent d s) :
    chunksConsistent d (updateChunks d fr camX camZ s) := by
  simp only [updateChunks, loadPass]
  have h1 := pass1_fold_consistent d fr ⌊camX / CHUNK_SIZE⌋ ⌊camZ / CHUNK_SIZE⌋
    (coordList ⌊camX / CHUNK_SIZE⌋ ⌊camZ / CHUNK_SIZE⌋) (s, []) h
  exact evictPass_consistent d _ _ _ h1 (fun e he => h1.2.1 e he)

/-- C4: after any `updateChunks` call from a consistent state, the global
walls list is exactly the union of the wall primitives of the currently
resident chunks: the state stays consistent (each global collection is the
concatenation of the resident chunks' primitives), and a wall primitive is in
`walls` iff some resident chunk owns it — nothing from an evicted chunk
remains and nothing of a resident chunk is dropped. -/
theorem updateChunks_walls_exact (d : GenDecisions) (fr : Int → Int → Bool)
    (camX camZ : ℚ) (s : WState) (h : chunksConsistent d s) :
    chunksConsistent d (updateChunks d fr camX camZ s) ∧
      ∀ p : Prim, (p ∈ (updateChunks d fr camX camZ s).walls ↔
        ∃ e ∈ (updateChunks d fr camX camZ s).chunks, p ∈ e.2.cwalls) := by
  have hc := updateChunks_consistent d fr camX camZ s h
  refine ⟨hc, fun p => ?_⟩
  rw [hc.2.2.1, List.mem_flatten]
  constructor
  · rintro ⟨lp, hlp, hplp⟩
    rcases List.mem_map.mp hlp with ⟨e, he, heq⟩
    exact ⟨e, he, heq ▸ hplp⟩
  · rintro ⟨e, he, hpe⟩
    exact ⟨e.2.cwalls, List.mem_map.mpr ⟨e, he, rfl⟩, hpe⟩

theorem updateChunks_walls_exact_witness :
    chunksConsistent ⟨fun _ _ _ _ => false, fun _ _ _ _ => false,
        fun _ _ _ => false, false⟩ ⟨[], [], [], []⟩ ∧
      (chunksConsistent ⟨fun _ _ _ _ => false, fun _ _ _ _ => false,
          fun _ _ _ => false, false⟩
        (updateChunks ⟨fun _ _ _ _ => false, fun _ _ _ _ => false,
          fun _ _ _ => false, false⟩ (fun _ _ => false) 0 0 ⟨[], [], [], []⟩) ∧
        ∀ p : Prim, (p ∈ (updateChunks ⟨fun _ _ _ _ => false, fun _ _ _ _ => false,
            fun _ _ _ => false, false⟩ (fun _ _ => false) 0 0 ⟨[], [], [], []⟩).walls ↔
          ∃ e ∈ (updateChunks ⟨fun _ _ _ _ => false, fun _ _ _ _ => false,
            fun _ _ _ => false, false⟩ (fun _ _ => false) 0 0 ⟨[], [], [], []⟩).chunks,
            p ∈ e.2.cwalls)) := by
  have hcons : chunksConsistent ⟨fun _ _ _ _ => false, fun _ _ _ _ => false,
      fun _ _ _ => false, false⟩ ⟨[], [], [], []⟩ := by
    simp [chunksConsistent]
  exact ⟨hcons, updateChunks_walls_exact _ _ 0 0 _ hcons⟩

end Backrooms
